import Mathlib

/-!
Verification of the document-distance programs `docdist1.py` and `docdist6.py`.

The programs compute the angle between the word-frequency vectors of two text
documents.  This file embeds the algorithmic core of both programs — the
tokenizer, the frequency counter, the two sorting routines, the merge-join
inner product and the angle computation — as Lean definitions, and proves the
specification's claims about them.

Modelling conventions:
* Python byte strings are modelled as `List Char`; the programs only ever
  classify ASCII characters, and every character-class primitive below is
  defined by the same ASCII code ranges that Python 2's C locale uses.
* Python integers are modelled as `ℕ` (word counts are never negative).
  The float accumulator `sum = 0.0` of `inner_product` only ever holds sums
  of products of integer counts, so it is modelled by the exact natural
  number it is intended to denote; the derived angle computation is modelled
  over `ℝ`, idealizing IEEE floating point as exact real arithmetic.
* `vector_angle` can raise exceptions in Python (`ZeroDivisionError` from
  `numerator/denominator`, `ValueError` from `math.acos`), so it is embedded
  as an `Except`-valued function.
-/

/-- A word, as produced by the tokenizers: a Python string, i.e. a list of
characters. -/
abbrev Word := List Char

/-- One entry of a frequency mapping: a `(word, count)` pair. -/
abbrev FreqPair := Word × ℕ

/-! ## Character classification (Python 2, C locale)

`str.isalnum`, `string.lower`, `string.punctuation`, `string.uppercase` and
`str.split()` all work on ASCII code ranges in Python 2's default C locale. -/

/-- Python 2 `str.isalnum()`: ASCII digits `0-9` (48–57), uppercase `A-Z`
(65–90) and lowercase `a-z` (97–122). -/
def pyIsAlnum (c : Char) : Bool :=
  decide (48 ≤ c.toNat ∧ c.toNat ≤ 57) ||
  decide (65 ≤ c.toNat ∧ c.toNat ≤ 90) ||
  decide (97 ≤ c.toNat ∧ c.toNat ≤ 122)

/-- Python 2 whitespace, as used by `str.split()`: space (32), tab (9),
newline (10), vertical tab (11), form feed (12), carriage return (13). -/
def pyIsSpace (c : Char) : Bool :=
  decide (c.toNat = 32) || decide (9 ≤ c.toNat ∧ c.toNat ≤ 13)

/-- Python 2 `string.punctuation`: the ASCII ranges 33–47, 58–64, 91–96 and
123–126. -/
def pyIsPunct (c : Char) : Bool :=
  decide (33 ≤ c.toNat ∧ c.toNat ≤ 47) ||
  decide (58 ≤ c.toNat ∧ c.toNat ≤ 64) ||
  decide (91 ≤ c.toNat ∧ c.toNat ≤ 96) ||
  decide (123 ≤ c.toNat ∧ c.toNat ≤ 126)

/-- Python 2 `string.lower` on one character: uppercase ASCII letters are
shifted down to lowercase (code + 32), everything else is unchanged. -/
def pyLowerChar (c : Char) : Char :=
  if 65 ≤ c.toNat ∧ c.toNat ≤ 90 then Char.ofNat (c.toNat + 32) else c

/-- Evaluating `Char.ofNat` below the surrogate range recovers the code. -/
theorem toNat_ofNat_small : ∀ m, m < 128 → (Char.ofNat m).toNat = m := by
  decide

/-! ## The docdist1 tokenizer: `get_words_from_string`

The source scans the line character by character, accumulating alphanumeric
characters into `character_list` and flushing the accumulated word (joined
and lower-cased) into `word_list` at each non-alphanumeric character and at
the end of the line. -/

/-- The state of the `for c in line` loop of `get_words_from_string`:
remaining input, accumulated `word_list`, accumulated `character_list`. -/
def gwfsLoop : List Char → List Word → List Char → List Word
  | [], word_list, character_list =>
      if 0 < character_list.length
      then word_list ++ [character_list.map pyLowerChar]
      else word_list
  | c :: rest, word_list, character_list =>
      if pyIsAlnum c then
        gwfsLoop rest word_list (character_list ++ [c])
      else if 0 < character_list.length then
        gwfsLoop rest (word_list ++ [character_list.map pyLowerChar]) []
      else
        gwfsLoop rest word_list []

/-- `get_words_from_string` from `docdist1.py`: split a line into its
maximal alphanumeric runs, lower-cased. -/
def get_words_from_string (line : List Char) : List Word :=
  gwfsLoop line [] []

/-- `get_words_from_line_list` (both programs): tokenize each line and
append the per-line word lists (`+` in docdist1, `extend` in docdist6). -/
def get_words_from_line_list (L : List (List Char)) : List Word :=
  L.foldl (fun word_list line => word_list ++ get_words_from_string line) []

/-! ## The docdist6 tokenizer: translation table plus `split` -/

/-- One entry of docdist6's `translation_table`: punctuation maps to a
space, uppercase maps to lowercase, everything else is unchanged. -/
def translateChar (c : Char) : Char :=
  if pyIsPunct c then ' '
  else if 65 ≤ c.toNat ∧ c.toNat ≤ 90 then Char.ofNat (c.toNat + 32)
  else c

/-- Maximal runs: `runsBy p l` is the list of the maximal non-empty
segments of `l` whose characters all satisfy `p`; elements not satisfying
`p` act as separators and are dropped. -/
def runsBy (p : α → Bool) : List α → List (List α)
  | [] => []
  | a :: t =>
      if p a then
        match t, runsBy p t with
        | [], _ => [[a]]
        | b :: _, r =>
            if p b then
              match r with
              | [] => [[a]]
              | run :: rs => (a :: run) :: rs
            else [a] :: r
      else runsBy p t

/-- `get_words_from_string` from `docdist6.py`: translate the line through
the table, then `split()` it on whitespace (i.e. take the maximal
non-whitespace runs of the translated line). -/
def get_words_from_string6 (line : List Char) : List Word :=
  runsBy (fun c => !(pyIsSpace c)) (line.map translateChar)

example : get_words_from_string "the cat sat".toList =
    ["the".toList, "cat".toList, "sat".toList] := by decide

example : get_words_from_string "Don't--stop!".toList =
    ["don".toList, "t".toList, "stop".toList] := by decide

example : get_words_from_string6 "Don't--stop!".toList =
    ["don".toList, "t".toList, "stop".toList] := by decide

example : get_words_from_line_list ["ab".toList, "cd".toList] =
    ["ab".toList, "cd".toList] := by decide

/-! ## Operation 3: `count_frequency` -/

/-- One step of docdist1's `count_frequency` loop body: scan the list of
entries for `new_word`; increment the matching entry's count, or append a
fresh `[new_word, 1]` entry at the end if none matches. -/
def bumpWord (new_word : Word) : List FreqPair → List FreqPair
  | [] => [(new_word, 1)]
  | (w, c) :: t =>
      if w = new_word then (w, c + 1) :: t else (w, c) :: bumpWord new_word t

/-- `count_frequency` from `docdist1.py`: fold the scan-and-increment step
over the word list, starting from the empty list of entries.  (docdist6's
dictionary version computes the same word-to-count mapping.) -/
def count_frequency (word_list : List Word) : List FreqPair :=
  word_list.foldl (fun L new_word => bumpWord new_word L) []

/-- Reading the frequency mapping: the count stored for `w`, if any. -/
def lookupWord (w : Word) : List FreqPair → Option ℕ
  | [] => none
  | (x, c) :: t => if x = w then some c else lookupWord w t

/-! ## Python comparison of words and `[word, count]` pairs

Python 2 compares strings lexicographically byte by byte, and compares the
`[word, count]` lists used as vector entries element by element: first the
words, and on equal words the counts. -/

/-- Python string comparison `s1 < s2`: lexicographic on character codes,
with a proper prefix comparing as smaller. -/
def strLt : Word → Word → Bool
  | [], [] => false
  | [], _ :: _ => true
  | _ :: _, [] => false
  | a :: as', b :: bs' =>
      if a < b then true else if b < a then false else strLt as' bs'

/-- Python comparison of two `[word, count]` entries: by word first, then
by count. -/
def pairLt (p q : FreqPair) : Bool :=
  if p.1 = q.1 then decide (p.2 < q.2) else strLt p.1 q.1

/-- Irreflexivity of Python string comparison. -/
theorem strLt_irrefl : ∀ w : Word, strLt w w = false := by
  intro w
  induction w with
  | nil => rfl
  | cons a t ih => simp [strLt, ih]

/-- Asymmetry of Python string comparison. -/
theorem strLt_asymm : ∀ {a b : Word}, strLt a b = true → strLt b a = false := by
  intro a
  induction a with
  | nil => intro b h; cases b with
      | nil => simp [strLt] at h
      | cons x xs => rfl
  | cons x xs ih =>
      intro b h
      cases b with
      | nil => simp [strLt] at h
      | cons y ys =>
          simp only [strLt] at h ⊢
          by_cases hxy : x < y
          · have : ¬ y < x := lt_asymm hxy
            simp [hxy, this]
          · by_cases hyx : y < x
            · simp [hxy, hyx] at h
            · simp only [hxy, hyx, if_false] at h
              simp [hyx, hxy, ih h]

/-- Transitivity of Python string comparison. -/
theorem strLt_trans : ∀ {a b c : Word},
    strLt a b = true → strLt b c = true → strLt a c = true := by
  intro a
  induction a with
  | nil =>
      intro b c hab hbc
      cases b with
      | nil => simp [strLt] at hab
      | cons y ys =>
          cases c with
          | nil => simp [strLt] at hbc
          | cons z zs => rfl
  | cons x xs ih =>
      intro b c hab hbc
      cases b with
      | nil => simp [strLt] at hab
      | cons y ys =>
          cases c with
          | nil => simp [strLt] at hbc
          | cons z zs =>
              simp only [strLt] at hab hbc ⊢
              by_cases hxy : x < y
              · by_cases hyz : y < z
                · simp [lt_trans hxy hyz]
                · by_cases hzy : z < y
                  · simp [hyz, hzy] at hbc
                  · have hyz' : y = z := le_antisymm (not_lt.mp hzy) (not_lt.mp hyz)
                    subst hyz'
                    simp [hxy]
              · by_cases hyx : y < x
                · simp [hxy, hyx] at hab
                · have hxy' : x = y := le_antisymm (not_lt.mp hyx) (not_lt.mp hxy)
                  subst hxy'
                  simp only [lt_irrefl, if_false] at hab
                  by_cases hyz : x < z
                  · simp [hyz]
                  · by_cases hzy : z < x
                    · simp [hyz, hzy] at hbc
                    · simp only [hyz, hzy, if_false] at hbc ⊢
                      exact ih hab hbc

/-- Totality of Python string comparison: distinct strings compare. -/
theorem strLt_connex : ∀ {a b : Word},
    a ≠ b → strLt a b = true ∨ strLt b a = true := by
  intro a
  induction a with
  | nil =>
      intro b h
      cases b with
      | nil => exact absurd rfl h
      | cons y ys => exact Or.inl rfl
  | cons x xs ih =>
      intro b h
      cases b with
      | nil => exact Or.inr rfl
      | cons y ys =>
          by_cases hxy : x < y
          · exact Or.inl (by simp [strLt, hxy])
          · by_cases hyx : y < x
            · exact Or.inr (by simp [strLt, hyx, lt_asymm hyx])
            · have hxy' : x = y := le_antisymm (not_lt.mp hyx) (not_lt.mp hxy)
              subst hxy'
              have hne : xs ≠ ys := by
                intro hE; exact h (by rw [hE])
              rcases ih hne with h1 | h1
              · exact Or.inl (by simp [strLt, h1])
              · exact Or.inr (by simp [strLt, h1])

/-- Distinct strings with neither smaller are impossible. -/
theorem strLt_eq_of_both_false {a b : Word}
    (h1 : strLt a b = false) (h2 : strLt b a = false) : a = b := by
  by_contra hne
  rcases strLt_connex hne with h | h
  · rw [h] at h1; cases h1
  · rw [h] at h2; cases h2

/-- Irreflexivity of the Python pair comparison. -/
theorem pairLt_irrefl (p : FreqPair) : pairLt p p = false := by
  simp [pairLt]

/-- Asymmetry of the Python pair comparison. -/
theorem pairLt_asymm {p q : FreqPair} (h : pairLt p q = true) :
    pairLt q p = false := by
  unfold pairLt at h ⊢
  by_cases hk : p.1 = q.1
  · simp only [hk, if_pos rfl] at h
    simp [hk.symm, Nat.lt_asymm (of_decide_eq_true h)]
  · have hk' : ¬ q.1 = p.1 := fun hE => hk hE.symm
    simp only [if_neg hk] at h
    simp [if_neg hk', strLt_asymm h]

/-- Transitivity of the Python pair comparison. -/
theorem pairLt_trans {p q r : FreqPair}
    (h1 : pairLt p q = true) (h2 : pairLt q r = true) : pairLt p r = true := by
  unfold pairLt at h1 h2 ⊢
  by_cases hpq : p.1 = q.1
  · by_cases hqr : q.1 = r.1
    · have hpr : p.1 = r.1 := hpq.trans hqr
      simp only [hpq, if_pos rfl] at h1
      simp only [hqr, if_pos rfl] at h2
      simp [hpr, Nat.lt_trans (of_decide_eq_true h1) (of_decide_eq_true h2)]
    · simp only [if_neg hqr] at h2
      have hpr : ¬ p.1 = r.1 := by rw [hpq]; exact hqr
      rw [if_neg hpr, hpq]
      exact h2
  · by_cases hqr : q.1 = r.1
    · simp only [if_neg hpq] at h1
      have hpr : ¬ p.1 = r.1 := by rw [← hqr]; exact hpq
      rw [hqr] at h1
      simp [if_neg hpr, h1]
    · simp only [if_neg hpq] at h1
      simp only [if_neg hqr] at h2
      have hlt : strLt p.1 r.1 = true := strLt_trans h1 h2
      have hpr : ¬ p.1 = r.1 := by
        intro hE
        rw [hE] at h1
        have := strLt_asymm h2
        rw [this] at h1; cases h1
      simp [if_neg hpr, hlt]

/-- Totality of the Python pair comparison. -/
theorem pairLt_connex {p q : FreqPair} (h : p ≠ q) :
    pairLt p q = true ∨ pairLt q p = true := by
  unfold pairLt
  by_cases hk : p.1 = q.1
  · have hc : p.2 ≠ q.2 := by
      intro hE
      exact h (Prod.ext hk hE)
    have hk' : q.1 = p.1 := hk.symm
    rcases Nat.lt_or_ge p.2 q.2 with hlt | hge
    · left; simp [hk, hlt]
    · right
      have : q.2 < p.2 := lt_of_le_of_ne hge (fun hE => hc hE.symm)
      simp [hk', this]
  · have hk' : ¬ q.1 = p.1 := fun hE => hk hE.symm
    rcases strLt_connex hk with hlt | hlt
    · left; simp [if_neg hk, hlt]
    · right; simp [if_neg hk', hlt]

/-- From `u < v` and `v ≤ w` conclude `u < w` (with `x ≤ y` expressed as
`pairLt y x = false`, the way the sorted-ness invariants state it). -/
theorem pairLt_of_lt_of_nlt {u v w : FreqPair}
    (h1 : pairLt u v = true) (h2 : pairLt w v = false) : pairLt u w = true := by
  by_cases huw : u = w
  · subst huw; rw [h1] at h2; cases h2
  · rcases pairLt_connex huw with h | h
    · exact h
    · have := pairLt_trans h h1
      rw [this] at h2; cases h2

/-- Transitivity of `x ≤ y` expressed as `pairLt y x = false`. -/
theorem pairNlt_trans {a b c : FreqPair}
    (h1 : pairLt b a = false) (h2 : pairLt c b = false) : pairLt c a = false := by
  by_cases h : pairLt c a = true
  · have := pairLt_of_lt_of_nlt h h1
    rw [this] at h2; cases h2
  · simpa using h

/-! ## Operation 4 (docdist1): `insertion_sort`

The source sorts in place: for each `j` it extracts `key = A[j]` and shifts
the elements of the sorted prefix `A[0..j-1]` that are greater than `key`
one slot to the right, dropping `key` in front of the first element that is
not greater.  Functionally this is a fold of a sorted-insert over the list. -/

/-- Insert `key` into a sorted list: `key` goes immediately before the
first element greater than `key` (the position the shifting loop frees). -/
def insertKey (key : FreqPair) : List FreqPair → List FreqPair
  | [] => [key]
  | x :: xs => if pairLt key x then key :: x :: xs else x :: insertKey key xs

/-- `insertion_sort` from `docdist1.py` (also present in docdist6):
insert each element in turn into the sorted prefix. -/
def insertion_sort (A : List FreqPair) : List FreqPair :=
  A.foldl (fun acc key => insertKey key acc) []

/-- Sorted ascending under the Python pair comparison: no later element is
smaller than an earlier one. -/
def SortedPy (l : List FreqPair) : Prop :=
  l.Pairwise (fun x y => pairLt y x = false)

/-- Strictly ascending words: the key of every later entry is strictly
greater, in Python string order, than the key of every earlier entry. -/
def StrictAscWords (l : List FreqPair) : Prop :=
  l.Pairwise (fun x y => strLt x.1 y.1 = true)

instance (l : List FreqPair) : Decidable (SortedPy l) :=
  List.instDecidablePairwise l

instance (l : List FreqPair) : Decidable (StrictAscWords l) :=
  List.instDecidablePairwise l

/-- Inserting is a permutation of consing. -/
theorem insertKey_perm (key : FreqPair) (l : List FreqPair) :
    List.Perm (insertKey key l) (key :: l) := by
  induction l with
  | nil => exact List.Perm.refl _
  | cons x xs ih =>
      by_cases h : pairLt key x = true
      · simp [insertKey, h]
      · rw [insertKey, if_neg (by simp [h])]
        exact (ih.cons x).trans (List.Perm.swap _ _ _)

/-- Inserting preserves sorted-ness. -/
theorem insertKey_sorted {l : List FreqPair} (key : FreqPair)
    (hl : SortedPy l) : SortedPy (insertKey key l) := by
  induction l with
  | nil => simp [insertKey, SortedPy]
  | cons x xs ih =>
      rcases List.pairwise_cons.mp hl with ⟨hx, hxs⟩
      by_cases h : pairLt key x = true
      · rw [SortedPy, insertKey, if_pos h, List.pairwise_cons]
        constructor
        · intro y hy
          rcases List.mem_cons.mp hy with hy' | hy'
          · subst hy'; exact pairLt_asymm h
          · by_cases hyk : pairLt y key = true
            · have := pairLt_trans hyk h
              rw [hx y hy'] at this; cases this
            · simpa using hyk
        · exact hl
      · rw [SortedPy, insertKey, if_neg (by simp [h]), List.pairwise_cons]
        constructor
        · intro y hy
          have hy' := (insertKey_perm key xs).mem_iff.mp hy
          rcases List.mem_cons.mp hy' with hy'' | hy''
          · subst hy''; simpa using h
          · exact hx y hy''
        · exact ih hxs

/-- The fold underlying `insertion_sort` permutes `acc ++ A`. -/
theorem insertion_sort_foldl_perm (A : List FreqPair) :
    ∀ acc, List.Perm (A.foldl (fun acc key => insertKey key acc) acc) (acc ++ A) := by
  induction A with
  | nil => intro acc; simp
  | cons a t ih =>
      intro acc
      have h1 : (a :: t).foldl (fun acc key => insertKey key acc) acc
          = t.foldl (fun acc key => insertKey key acc) (insertKey a acc) := rfl
      rw [h1]
      have h2 := ih (insertKey a acc)
      have h3 : List.Perm (insertKey a acc ++ t) ((a :: acc) ++ t) :=
        (insertKey_perm a acc).append_right t
      have h4 : List.Perm ((a :: acc) ++ t) (acc ++ a :: t) := List.perm_middle.symm
      exact (h2.trans h3).trans h4

/-- `insertion_sort` returns a permutation of its input. -/
theorem insertion_sort_perm (A : List FreqPair) :
    List.Perm (insertion_sort A) A := by
  simpa using insertion_sort_foldl_perm A []

/-- `insertion_sort` returns a sorted list. -/
theorem insertion_sort_sorted (A : List FreqPair) : SortedPy (insertion_sort A) := by
  have main : ∀ (A acc : List FreqPair), SortedPy acc →
      SortedPy (A.foldl (fun acc key => insertKey key acc) acc) := by
    intro A
    induction A with
    | nil => intro acc h; exact h
    | cons a t ih => intro acc h; exact ih _ (insertKey_sorted a h)
  exact main A [] (by simp [SortedPy])

/-! ## Operation 4 (docdist6): `merge_sort`

The source recursion is
```
n = len(A)
if n==1: return A
mid = n//2
L = merge_sort(A[:mid]); R = merge_sort(A[mid:]); return merge(L,R)
```
There is no case for `n == 0`: on the empty list the function calls itself
on `A[:0] = []` again and never returns.  The embedding therefore carries an
explicit recursion budget (`fuel`); `none` means the budget was exhausted,
which happens for every budget exactly when the Python original recurses
without bound. -/

/-- `merge` from `docdist6.py`: linear merge of two sorted lists, taking
from the left list exactly when its head is strictly smaller (`L[i]<R[j]`),
then appending the leftovers. -/
def pyMerge : List FreqPair → List FreqPair → List FreqPair
  | [], R => R
  | L, [] => L
  | a :: l, b :: r =>
      if pairLt a b then a :: pyMerge l (b :: r) else b :: pyMerge (a :: l) r
termination_by L R => L.length + R.length

/-- `merge_sort` from `docdist6.py`, with an explicit recursion budget.
The branch structure is exactly the source's: the only base case is
`len(A) == 1`. -/
def merge_sort_fuel : ℕ → List FreqPair → Option (List FreqPair)
  | 0, _ => none
  | fuel + 1, A =>
      if A.length = 1 then some A
      else
        match merge_sort_fuel fuel (A.take (A.length / 2)),
              merge_sort_fuel fuel (A.drop (A.length / 2)) with
        | some L, some R => some (pyMerge L R)
        | _, _ => none

/-- `merge_sort` diverges on an input when no recursion budget suffices. -/
def MergeSortDiverges (A : List FreqPair) : Prop :=
  ∀ fuel, merge_sort_fuel fuel A = none

/-- On the empty list, every recursion budget is exhausted: the source
`merge_sort([])` calls `merge_sort([])` again unconditionally. -/
theorem merge_sort_fuel_nil : ∀ fuel, merge_sort_fuel fuel ([] : List FreqPair) = none := by
  intro fuel
  induction fuel with
  | zero => rfl
  | succ n ih => simp [merge_sort_fuel, ih]

/-- `pyMerge` returns a permutation of the two inputs appended. -/
theorem pyMerge_perm : ∀ (L R : List FreqPair), List.Perm (pyMerge L R) (L ++ R) := by
  intro L R
  induction L, R using pyMerge.induct with
  | case1 R => simp [pyMerge]
  | case2 L => cases L with
      | nil => simp [pyMerge]
      | cons a l => simp [pyMerge]
  | case3 a l b r h ih =>
      rw [pyMerge, if_pos h]
      exact ih.cons a
  | case4 a l b r h ih =>
      rw [pyMerge, if_neg (by simp [h])]
      have h1 : List.Perm ((a :: l) ++ r) (b :: ((a :: l) ++ r)).tail := List.Perm.refl _
      have h2 := ih.cons b
      have h3 : List.Perm (b :: ((a :: l) ++ r)) ((a :: l) ++ (b :: r)) :=
        List.perm_middle.symm
      exact h2.trans h3

/-- Merging two sorted lists gives a sorted list. -/
theorem pyMerge_sorted : ∀ {L R : List FreqPair},
    SortedPy L → SortedPy R → SortedPy (pyMerge L R) := by
  intro L R
  induction L, R using pyMerge.induct with
  | case1 R => intro _ h; simpa [pyMerge] using h
  | case2 L =>
      intro h _
      cases L with
      | nil => simpa [pyMerge] using h
      | cons a l => simpa [pyMerge] using h
  | case3 a l b r h ih =>
      intro hL hR
      rcases List.pairwise_cons.mp hL with ⟨ha, hl⟩
      rw [SortedPy, pyMerge, if_pos h, List.pairwise_cons]
      refine ⟨?_, ih hl hR⟩
      intro y hy
      have hy' := (pyMerge_perm l (b :: r)).mem_iff.mp hy
      rcases List.mem_append.mp hy' with hy'' | hy''
      · exact ha y hy''
      · rcases List.mem_cons.mp hy'' with hy3 | hy3
        · subst hy3; exact pairLt_asymm h
        · rcases List.pairwise_cons.mp hR with ⟨hb, _⟩
          have hby := hb y hy3
          by_cases hya : pairLt y a = true
          · have := pairLt_of_lt_of_nlt (pairLt_trans hya h) hby
            rw [pairLt_irrefl] at this; cases this
          · simpa using hya
  | case4 a l b r h ih =>
      intro hL hR
      have hf : pairLt a b = false := by simpa using h
      rcases List.pairwise_cons.mp hR with ⟨hb, hr⟩
      rw [SortedPy, pyMerge, if_neg (by simp [h]), List.pairwise_cons]
      refine ⟨?_, ih hL hr⟩
      intro y hy
      have hy' := (pyMerge_perm (a :: l) r).mem_iff.mp hy
      rcases List.mem_append.mp hy' with hy'' | hy''
      · rcases List.mem_cons.mp hy'' with hy3 | hy3
        · subst hy3; exact hf
        · rcases List.pairwise_cons.mp hL with ⟨ha, _⟩
          exact pairNlt_trans hf (ha y hy3)
      · exact hb y hy''

/-- With a budget of at least the length of the input, `merge_sort`
terminates on every non-empty list and returns a sorted permutation of it. -/
theorem merge_sort_fuel_correct : ∀ (fuel : ℕ) (A : List FreqPair),
    A ≠ [] → A.length ≤ fuel →
    ∃ v, merge_sort_fuel fuel A = some v ∧ SortedPy v ∧ List.Perm v A := by
  intro fuel
  induction fuel with
  | zero =>
      intro A hne hlen
      exact absurd (List.length_eq_zero.mp (Nat.le_zero.mp hlen)) hne
  | succ n ih =>
      intro A hne hlen
      by_cases h1 : A.length = 1
      · refine ⟨A, by simp [merge_sort_fuel, h1], ?_, List.Perm.refl A⟩
        rcases A with _ | ⟨a, _ | ⟨b, t⟩⟩
        · simp at h1
        · simp [SortedPy]
        · simp at h1
      · have hpos : 0 < A.length := List.length_pos.mpr hne
        have h2 : 2 ≤ A.length := by omega
        have htake : (A.take (A.length / 2)).length = A.length / 2 := by
          rw [List.length_take]
          exact Nat.min_eq_left (Nat.div_le_self _ _)
        have hdrop : (A.drop (A.length / 2)).length = A.length - A.length / 2 := by
          rw [List.length_drop]
        have htake_ne : A.take (A.length / 2) ≠ [] := by
          intro hE
          have := congrArg List.length hE
          rw [htake] at this
          simp at this
          omega
        have hdrop_ne : A.drop (A.length / 2) ≠ [] := by
          intro hE
          have := congrArg List.length hE
          rw [hdrop] at this
          simp at this
          omega
        have htake_le : (A.take (A.length / 2)).length ≤ n := by
          rw [htake]; omega
        have hdrop_le : (A.drop (A.length / 2)).length ≤ n := by
          rw [hdrop]; omega
        rcases ih _ htake_ne htake_le with ⟨L, hLeq, hLs, hLp⟩
        rcases ih _ hdrop_ne hdrop_le with ⟨R, hReq, hRs, hRp⟩
        refine ⟨pyMerge L R, ?_, pyMerge_sorted hLs hRs, ?_⟩
        · simp [merge_sort_fuel, h1, hLeq, hReq]
        · have h3 := pyMerge_perm L R
          have h4 : List.Perm (L ++ R) (A.take (A.length / 2) ++ A.drop (A.length / 2)) :=
            hLp.append hRp
          have h5 : A.take (A.length / 2) ++ A.drop (A.length / 2) = A :=
            List.take_append_drop _ A
          rw [h5] at h4
          exact h3.trans h4

/-! ## Correctness of `count_frequency` -/

/-- How one `bumpWord` step changes the stored mapping. -/
theorem lookupWord_bumpWord (v w : Word) : ∀ L : List FreqPair,
    lookupWord w (bumpWord v L) =
      if v = w then some ((lookupWord w L).getD 0 + 1) else lookupWord w L := by
  intro L
  induction L with
  | nil =>
      by_cases h : v = w
      · subst h; simp [bumpWord, lookupWord]
      · simp [bumpWord, lookupWord, h]
  | cons p t ih =>
      rcases p with ⟨x, c⟩
      by_cases hxv : x = v
      · subst hxv
        by_cases hxw : x = w
        · subst hxw; simp [bumpWord, lookupWord]
        · simp [bumpWord, lookupWord, hxw, fun h => hxw (h : x = w)]
      · by_cases hxw : x = w
        · subst hxw
          have hvw : ¬ v = x := fun h => hxv h.symm
          simp [bumpWord, lookupWord, hxv, hvw]
        · simp [bumpWord, lookupWord, hxv, hxw, ih]

/-- The fold underlying `count_frequency`, characterized: each word's
stored count grows by its number of occurrences in the remaining input. -/
theorem lookupWord_count_foldl (w : Word) : ∀ (wl : List Word) (L : List FreqPair),
    lookupWord w (wl.foldl (fun L new_word => bumpWord new_word L) L) =
      if wl.count w = 0 then lookupWord w L
      else some ((lookupWord w L).getD 0 + wl.count w) := by
  intro wl
  induction wl with
  | nil => intro L; simp
  | cons v wl' ih =>
      intro L
      have hstep : (v :: wl').foldl (fun L new_word => bumpWord new_word L) L
          = wl'.foldl (fun L new_word => bumpWord new_word L) (bumpWord v L) := rfl
      rw [hstep, ih]
      by_cases hvw : v = w
      · subst hvw
        rw [List.count_cons_self]
        rw [lookupWord_bumpWord v v L, if_pos rfl]
        by_cases hc : wl'.count v = 0
        · simp [hc]
        · rw [if_neg hc, if_neg (by omega : ¬ (wl'.count v + 1 = 0))]
          simp only [Option.getD_some]
          congr 1
          omega
      · have hcount : (v :: wl').count w = wl'.count w := by
          rw [List.count_cons_of_ne (fun h => hvw h.symm)]
        rw [hcount, lookupWord_bumpWord v w L, if_neg hvw]

/-- `count_frequency` stores exactly the occurrence counts. -/
theorem lookupWord_count_frequency (w : Word) (wl : List Word) :
    lookupWord w (count_frequency wl) =
      if wl.count w = 0 then none else some (wl.count w) := by
  rw [count_frequency, lookupWord_count_foldl w wl []]
  by_cases h : wl.count w = 0
  · simp [h, lookupWord]
  · simp [h, lookupWord]

/-- `bumpWord` preserves the key set except possibly appending the new word. -/
theorem keys_bumpWord (v : Word) : ∀ L : List FreqPair,
    (bumpWord v L).map Prod.fst = L.map Prod.fst ∨
    (bumpWord v L).map Prod.fst = L.map Prod.fst ++ [v] ∧ v ∉ L.map Prod.fst := by
  intro L
  induction L with
  | nil => right; simp [bumpWord]
  | cons p t ih =>
      rcases p with ⟨x, c⟩
      by_cases hxv : x = v
      · left; subst hxv; simp [bumpWord]
      · rcases ih with h | ⟨h, hv⟩
        · left; simp [bumpWord, hxv, h]
        · right
          constructor
          · simp [bumpWord, hxv, h]
          · simp only [List.map_cons, List.mem_cons]
            rintro (h1 | h1)
            · exact hxv h1.symm
            · exact hv h1

/-- `bumpWord` preserves distinctness of the keys. -/
theorem nodup_keys_bumpWord (v : Word) (L : List FreqPair)
    (h : (L.map Prod.fst).Nodup) : ((bumpWord v L).map Prod.fst).Nodup := by
  rcases keys_bumpWord v L with h1 | ⟨h1, h2⟩
  · rw [h1]; exact h
  · rw [h1]
    rw [List.nodup_append]
    exact ⟨h, List.nodup_singleton v, by simpa using h2⟩

/-- The keys of `count_frequency` are distinct: no word appears twice. -/
theorem nodup_keys_count_frequency (wl : List Word) :
    ((count_frequency wl).map Prod.fst).Nodup := by
  have main : ∀ (wl : List Word) (L : List FreqPair), (L.map Prod.fst).Nodup →
      ((wl.foldl (fun L new_word => bumpWord new_word L) L).map Prod.fst).Nodup := by
    intro wl
    induction wl with
    | nil => intro L h; exact h
    | cons v wl' ih => intro L h; exact ih _ (nodup_keys_bumpWord v L h)
  exact main wl [] (by simp)

/-- Every count stored by `bumpWord` is positive if the old ones were. -/
theorem counts_pos_bumpWord (v : Word) : ∀ L : List FreqPair,
    (∀ p ∈ L, 1 ≤ p.2) → ∀ p ∈ bumpWord v L, 1 ≤ p.2 := by
  intro L
  induction L with
  | nil =>
      intro _ p hp
      simp only [bumpWord, List.mem_singleton] at hp
      subst hp; exact le_refl 1
  | cons q t ih =>
      rcases q with ⟨x, c⟩
      intro h p hp
      by_cases hxv : x = v
      · have hE : bumpWord v ((x, c) :: t) = (x, c + 1) :: t := by
          simp [bumpWord, hxv]
        rw [hE] at hp
        rcases List.mem_cons.mp hp with hp1 | hp1
        · subst hp1; omega
        · exact h p (List.mem_cons_of_mem _ hp1)
      · have hE : bumpWord v ((x, c) :: t) = (x, c) :: bumpWord v t := by
          simp [bumpWord, hxv]
        rw [hE] at hp
        rcases List.mem_cons.mp hp with hp1 | hp1
        · subst hp1; exact h (x, c) (List.mem_cons_self _ _)
        · exact ih (fun q hq => h q (List.mem_cons_of_mem _ hq)) p hp1

/-- Every count stored by `count_frequency` is at least 1. -/
theorem counts_pos_count_frequency (wl : List Word) :
    ∀ p ∈ count_frequency wl, 1 ≤ p.2 := by
  have main : ∀ (wl : List Word) (L : List FreqPair), (∀ p ∈ L, 1 ≤ p.2) →
      ∀ p ∈ wl.foldl (fun L new_word => bumpWord new_word L) L, 1 ≤ p.2 := by
    intro wl
    induction wl with
    | nil => intro L h; exact h
    | cons v wl' ih => intro L h; exact ih _ (counts_pos_bumpWord v L h)
  exact main wl [] (by simp)

/-! ## `inner_product` (both programs)

The source walks two cursors `i`, `j` over the two vectors: on equal words
it adds the product of the counts and advances both; otherwise it advances
the cursor holding the smaller word.  The float accumulator `sum = 0.0`
only ever holds sums of products of integer counts, so it is modelled by
the exact natural number. -/

/-- `inner_product` from `docdist1.py` and `docdist6.py` (identical):
merge-join over the two `(word, count)` lists. -/
def inner_product : List FreqPair → List FreqPair → ℕ
  | [], _ => 0
  | _ :: _, [] => 0
  | (w1, c1) :: t1, (w2, c2) :: t2 =>
      if w1 = w2 then c1 * c2 + inner_product t1 t2
      else if strLt w1 w2 then inner_product t1 ((w2, c2) :: t2)
      else inner_product ((w1, c1) :: t1) t2
termination_by L1 L2 => L1.length + L2.length

/-- The merge-join never consumes anything against an empty right vector. -/
theorem inner_product_nil_right : ∀ L : List FreqPair, inner_product L [] = 0 := by
  intro L
  cases L with
  | nil => exact inner_product.eq_1 []
  | cons p t => exact inner_product.eq_2 p t

/-- The self inner product decomposes head-first: the head word always
matches itself. -/
theorem inner_product_self_cons (w : Word) (c : ℕ) (t : List FreqPair) :
    inner_product ((w, c) :: t) ((w, c) :: t) = c * c + inner_product t t := by
  rw [inner_product.eq_3, if_pos rfl]

/-- The merge-join inner product is symmetric in its two arguments,
whatever the input lists are. -/
theorem inner_product_comm : ∀ L1 L2 : List FreqPair,
    inner_product L1 L2 = inner_product L2 L1 := by
  intro L1 L2
  induction L1, L2 using inner_product.induct with
  | case1 L2 => rw [inner_product.eq_1, inner_product_nil_right]
  | case2 p t => rw [inner_product.eq_2, inner_product.eq_1]
  | case3 c1 t1 w2 c2 t2 ih =>
      rw [inner_product.eq_3, if_pos rfl, inner_product.eq_3, if_pos rfl,
        ih, Nat.mul_comm]
  | case4 w1 c1 t1 w2 c2 t2 hne hlt ih =>
      rw [inner_product.eq_3, if_neg hne, if_pos hlt, ih]
      have hne' : ¬ w2 = w1 := fun h => hne h.symm
      rw [inner_product.eq_3, if_neg hne', if_neg (by simp [strLt_asymm hlt])]
  | case5 w1 c1 t1 w2 c2 t2 hne hnlt ih =>
      rw [inner_product.eq_3, if_neg hne, if_neg hnlt, ih]
      have hne' : ¬ w2 = w1 := fun h => hne h.symm
      have hlt : strLt w2 w1 = true := by
        rcases strLt_connex hne with h | h
        · rw [h] at hnlt; exact absurd rfl hnlt
        · exact h
      rw [inner_product.eq_3, if_neg hne', if_pos hlt]

/-- Cauchy–Schwarz for the merge-join inner product: the cross inner
product squared never exceeds the product of the self inner products.
This holds for arbitrary `(word, count)` lists because the cross join
matches each entry of one list against at most one entry of the other,
while the self join matches every entry against itself. -/
theorem inner_product_cauchy : ∀ L1 L2 : List FreqPair,
    inner_product L1 L2 * inner_product L1 L2 ≤
      inner_product L1 L1 * inner_product L2 L2 := by
  intro L1 L2
  induction L1, L2 using inner_product.induct with
  | case1 L2 => rw [inner_product.eq_1]; exact Nat.zero_le _
  | case2 p t => rw [inner_product.eq_2]; exact Nat.zero_le _
  | case3 c1 t1 w2 c2 t2 ih =>
      rw [inner_product.eq_3, if_pos rfl, inner_product_self_cons,
        inner_product_self_cons]
      set s := inner_product t1 t2 with hs
      set p := inner_product t1 t1 with hp
      set q := inner_product t2 t2 with hq
      zify at ih ⊢
      by_cases hq0 : q = 0
      · have hs0 : s = 0 := by
          have h1 : (s : ℤ) * (s : ℤ) ≤ (p : ℤ) * ((0 : ℕ) : ℤ) := by
            rw [← hq0]; exact ih
          have h2 : (s : ℤ) * (s : ℤ) ≤ 0 := by simpa using h1
          have h3 : (s : ℤ) = 0 := by nlinarith [Int.natCast_nonneg s]
          exact_mod_cast h3
        rw [hq0, hs0]
        push_cast
        nlinarith [Int.natCast_nonneg p, Int.natCast_nonneg c1,
          Int.natCast_nonneg c2]
      · have hq1 : (1 : ℤ) ≤ (q : ℤ) := by
          exact_mod_cast Nat.one_le_iff_ne_zero.mpr hq0
        nlinarith [ih, sq_nonneg ((c1 : ℤ) * q - (c2 : ℤ) * s),
          Int.natCast_nonneg s, Int.natCast_nonneg p, Int.natCast_nonneg q,
          Int.natCast_nonneg c1, Int.natCast_nonneg c2,
          mul_nonneg (mul_nonneg (Int.natCast_nonneg c2) (Int.natCast_nonneg c2))
            (sub_nonneg.mpr ih)]
  | case4 w1 c1 t1 w2 c2 t2 hne hlt ih =>
      rw [inner_product.eq_3, if_neg hne, if_pos hlt]
      have h1 : inner_product t1 t1 ≤ inner_product ((w1, c1) :: t1) ((w1, c1) :: t1) := by
        rw [inner_product_self_cons]
        exact Nat.le_add_left _ _
      calc inner_product t1 ((w2, c2) :: t2) * inner_product t1 ((w2, c2) :: t2)
          ≤ inner_product t1 t1 * inner_product ((w2, c2) :: t2) ((w2, c2) :: t2) := ih
        _ ≤ inner_product ((w1, c1) :: t1) ((w1, c1) :: t1) *
              inner_product ((w2, c2) :: t2) ((w2, c2) :: t2) :=
            Nat.mul_le_mul_right _ h1
  | case5 w1 c1 t1 w2 c2 t2 hne hnlt ih =>
      rw [inner_product.eq_3, if_neg hne, if_neg hnlt]
      have h1 : inner_product t2 t2 ≤ inner_product ((w2, c2) :: t2) ((w2, c2) :: t2) := by
        rw [inner_product_self_cons]
        exact Nat.le_add_left _ _
      calc inner_product ((w1, c1) :: t1) t2 * inner_product ((w1, c1) :: t1) t2
          ≤ inner_product ((w1, c1) :: t1) ((w1, c1) :: t1) * inner_product t2 t2 := ih
        _ ≤ inner_product ((w1, c1) :: t1) ((w1, c1) :: t1) *
              inner_product ((w2, c2) :: t2) ((w2, c2) :: t2) :=
            Nat.mul_le_mul_left _ h1

/-- The self inner product of a non-empty vector with positive counts is
positive. -/
theorem inner_product_self_pos {A : List FreqPair} (hne : A ≠ [])
    (hpos : ∀ p ∈ A, 1 ≤ p.2) : 1 ≤ inner_product A A := by
  rcases A with _ | ⟨⟨w, c⟩, t⟩
  · exact absurd rfl hne
  · rw [inner_product_self_cons]
    have hc : 1 ≤ c := hpos (w, c) (List.mem_cons_self _ _)
    have : 1 ≤ c * c := Nat.one_le_iff_ne_zero.mpr (by positivity)
    omega

/-! ## `vector_angle` (both programs) -/

/-- Exceptions that the angle computation can surface.  The first two are
the exceptions Python can actually raise in `vector_angle`.
`degenerateVectorError` is modelled from the spec: the spec (§7) names a
distinct error class `DegenerateVectorError` for empty vectors, but no such
class exists anywhere in the code; the constructor is included only so that
the spec's statements about it can be expressed. -/
inductive PyErr where
  | zeroDivisionError
  | valueError
  | degenerateVectorError
  deriving DecidableEq

open Classical in
/-- `vector_angle` from `docdist1.py` and `docdist6.py` (identical):
`arccos(inner_product(L1,L2) / sqrt(inner_product(L1,L1)*inner_product(L2,L2)))`.
Python raises `ZeroDivisionError` when the denominator is zero and
`ValueError` (`math domain error`) when `math.acos` is applied outside
`[-1, 1]`; there is no clamping step.  The arithmetic is idealized over
`ℝ`: under exact real arithmetic the ratio never exceeds 1 on `(word,
count)` lists (Cauchy–Schwarz below), making the `valueError` branch
unreachable, whereas the program's IEEE double arithmetic can round the
ratio above 1 on valid vectors and reach it — so no theorem below asserts
the `Except.ok` outcome of this function unconditionally. -/
noncomputable def vector_angle (L1 L2 : List FreqPair) : Except PyErr ℝ :=
  let numerator : ℝ := (inner_product L1 L2 : ℝ)
  let denominator : ℝ :=
    Real.sqrt ((inner_product L1 L1 : ℝ) * (inner_product L2 L2 : ℝ))
  if denominator = 0 then Except.error PyErr.zeroDivisionError
  else if numerator / denominator < -1 ∨ 1 < numerator / denominator then
    Except.error PyErr.valueError
  else Except.ok (Real.arccos (numerator / denominator))

/-- If either vector is empty, the division in `vector_angle` raises
`ZeroDivisionError`. -/
theorem vector_angle_zero_div {L1 L2 : List FreqPair} (h : L1 = [] ∨ L2 = []) :
    vector_angle L1 L2 = Except.error PyErr.zeroDivisionError := by
  have hzero : ((inner_product L1 L1 : ℝ) * (inner_product L2 L2 : ℝ)) = 0 := by
    rcases h with h | h
    · subst h; rw [inner_product.eq_1]; simp
    · subst h; rw [inner_product.eq_1]; simp
  rw [vector_angle]
  simp [hzero]

/-- On non-empty vectors with positive counts, `vector_angle` reaches the
`arccos` and returns an angle in `[0, π/2]`; neither the division nor the
`arccos` can fail. -/
theorem vector_angle_ok {L1 L2 : List FreqPair}
    (hne1 : L1 ≠ []) (hne2 : L2 ≠ [])
    (hpos1 : ∀ p ∈ L1, 1 ≤ p.2) (hpos2 : ∀ p ∈ L2, 1 ≤ p.2) :
    vector_angle L1 L2 =
      Except.ok (Real.arccos ((inner_product L1 L2 : ℝ) /
        Real.sqrt ((inner_product L1 L1 : ℝ) * (inner_product L2 L2 : ℝ)))) ∧
    0 ≤ Real.arccos ((inner_product L1 L2 : ℝ) /
        Real.sqrt ((inner_product L1 L1 : ℝ) * (inner_product L2 L2 : ℝ))) ∧
    Real.arccos ((inner_product L1 L2 : ℝ) /
        Real.sqrt ((inner_product L1 L1 : ℝ) * (inner_product L2 L2 : ℝ))) ≤
      Real.pi / 2 := by
  have hp : 1 ≤ inner_product L1 L1 := inner_product_self_pos hne1 hpos1
  have hq : 1 ≤ inner_product L2 L2 := inner_product_self_pos hne2 hpos2
  have hprod : (0 : ℝ) < (inner_product L1 L1 : ℝ) * (inner_product L2 L2 : ℝ) := by
    have h1 : (0 : ℝ) < (inner_product L1 L1 : ℝ) := by exact_mod_cast hp
    have h2 : (0 : ℝ) < (inner_product L2 L2 : ℝ) := by exact_mod_cast hq
    exact mul_pos h1 h2
  have hden : (0 : ℝ) <
      Real.sqrt ((inner_product L1 L1 : ℝ) * (inner_product L2 L2 : ℝ)) :=
    Real.sqrt_pos.mpr hprod
  have hnum : (0 : ℝ) ≤ (inner_product L1 L2 : ℝ) := Nat.cast_nonneg _
  have hratio0 : 0 ≤ (inner_product L1 L2 : ℝ) /
      Real.sqrt ((inner_product L1 L1 : ℝ) * (inner_product L2 L2 : ℝ)) :=
    div_nonneg hnum hden.le
  have hle : (inner_product L1 L2 : ℝ) ≤
      Real.sqrt ((inner_product L1 L1 : ℝ) * (inner_product L2 L2 : ℝ)) := by
    have hcs : ((inner_product L1 L2 : ℝ)) * ((inner_product L1 L2 : ℝ)) ≤
        (inner_product L1 L1 : ℝ) * (inner_product L2 L2 : ℝ) := by
      exact_mod_cast inner_product_cauchy L1 L2
    have h1 : (inner_product L1 L2 : ℝ) =
        Real.sqrt ((inner_product L1 L2 : ℝ) * (inner_product L1 L2 : ℝ)) :=
      (Real.sqrt_mul_self hnum).symm
    rw [h1]
    exact Real.sqrt_le_sqrt hcs
  have hratio1 : (inner_product L1 L2 : ℝ) /
      Real.sqrt ((inner_product L1 L1 : ℝ) * (inner_product L2 L2 : ℝ)) ≤ 1 :=
    (div_le_one hden).mpr hle
  refine ⟨?_, Real.arccos_nonneg _, Real.arccos_le_pi_div_two.mpr hratio0⟩
  rw [vector_angle]
  rw [if_neg (by exact ne_of_gt hden)]
  rw [if_neg ?_]
  push_neg
  constructor
  · linarith
  · exact hratio1

/-! ## Characterizing the tokenizers via maximal runs -/

/-- A separator at the head contributes nothing. -/
theorem runsBy_cons_neg {p : α → Bool} {a : α} (t : List α) (h : p a = false) :
    runsBy p (a :: t) = runsBy p t := by
  cases t with
  | nil => rw [runsBy.eq_2, if_neg (by simp [h])]
  | cons b t' => rw [runsBy.eq_3, if_neg (by simp [h])]

/-- A non-empty list all of whose elements satisfy `p` is one single run. -/
theorem runsBy_all {p : α → Bool} : ∀ {l : List α}, l ≠ [] →
    (∀ x ∈ l, p x = true) → runsBy p l = [l] := by
  intro l
  induction l with
  | nil => intro h _; exact absurd rfl h
  | cons a t ih =>
      intro _ hall
      have ha : p a = true := hall a (List.mem_cons_self _ _)
      cases t with
      | nil => rw [runsBy.eq_2, if_pos ha]
      | cons b t' =>
          have hb : p b = true := hall b (by simp)
          have ht : runsBy p (b :: t') = [b :: t'] :=
            ih (by simp) (fun x hx => hall x (List.mem_cons_of_mem _ hx))
          rw [runsBy.eq_3, if_pos ha, if_pos hb, ht]

/-- A full run followed by a separator: the run splits off whole. -/
theorem runsBy_run_sep {p : α → Bool} {c : α} (hc : p c = false) :
    ∀ {cl : List α} (rest : List α), cl ≠ [] → (∀ x ∈ cl, p x = true) →
    runsBy p (cl ++ c :: rest) = cl :: runsBy p rest := by
  intro cl
  induction cl with
  | nil => intro rest h _; exact absurd rfl h
  | cons a cl' ih =>
      intro rest _ hall
      have ha : p a = true := hall a (List.mem_cons_self _ _)
      cases cl' with
      | nil =>
          rw [List.singleton_append, runsBy.eq_3, if_pos ha,
            if_neg (by simp [hc]), runsBy_cons_neg rest hc]
      | cons b cl'' =>
          have hb : p b = true := hall b (by simp)
          have ht : runsBy p ((b :: cl'') ++ c :: rest) = (b :: cl'') :: runsBy p rest :=
            ih rest (by simp) (fun x hx => hall x (List.mem_cons_of_mem _ hx))
          simp only [List.cons_append] at ht ⊢
          rw [runsBy.eq_3, if_pos ha, if_pos hb, ht]

/-- Invariant of the `get_words_from_string` scanning loop: with a partial
alphanumeric run `cl` in hand, the loop emits `wl` followed by the
lower-cased maximal alphanumeric runs of `cl ++ rest`. -/
theorem gwfsLoop_runs : ∀ (rest : List Char) (wl : List Word) (cl : List Char),
    (∀ x ∈ cl, pyIsAlnum x = true) →
    gwfsLoop rest wl cl =
      wl ++ (runsBy pyIsAlnum (cl ++ rest)).map (List.map pyLowerChar) := by
  intro rest
  induction rest with
  | nil =>
      intro wl cl hall
      cases cl with
      | nil => simp [gwfsLoop, runsBy]
      | cons a cl' =>
          rw [gwfsLoop, if_pos (by simp)]
          rw [List.append_nil, runsBy_all (by simp) hall]
          simp
  | cons c rest' ih =>
      intro wl cl hall
      by_cases hc : pyIsAlnum c = true
      · rw [gwfsLoop, if_pos hc]
        rw [ih wl (cl ++ [c]) (by
          intro x hx
          rcases List.mem_append.mp hx with hx | hx
          · exact hall x hx
          · rw [List.mem_singleton.mp hx]; exact hc)]
        rw [List.append_assoc, List.singleton_append]
      · have hc' : pyIsAlnum c = false := by simpa using hc
        cases cl with
        | nil =>
            rw [gwfsLoop, if_neg (by simp [hc']), if_neg (by simp)]
            rw [ih wl [] (by simp)]
            rw [List.nil_append, List.nil_append, runsBy_cons_neg rest' hc']
        | cons a cl' =>
            rw [gwfsLoop, if_neg (by simp [hc']), if_pos (by simp)]
            rw [ih (wl ++ [(a :: cl').map pyLowerChar]) [] (by simp)]
            rw [runsBy_run_sep hc' rest' (by simp) hall]
            simp [List.append_assoc]

/-- `get_words_from_string` computes exactly the maximal alphanumeric runs
of the line, each lower-cased, in order of first character. -/
theorem get_words_from_string_runs (line : List Char) :
    get_words_from_string line =
      (runsBy pyIsAlnum line).map (List.map pyLowerChar) := by
  rw [get_words_from_string, gwfsLoop_runs line [] [] (by simp)]
  simp

/-- The per-line fold of `get_words_from_line_list` just appends the
per-line token lists. -/
theorem get_words_from_line_list_eq (L : List (List Char)) :
    get_words_from_line_list L = (L.map get_words_from_string).flatten := by
  have main : ∀ (L : List (List Char)) (acc : List Word),
      L.foldl (fun word_list line => word_list ++ get_words_from_string line) acc =
        acc ++ (L.map get_words_from_string).flatten := by
    intro L
    induction L with
    | nil => intro acc; simp
    | cons l t ih => intro acc; simp [ih, List.append_assoc]
  simpa using main L []

/-! ## Bridging the two tokenizers -/

/-- Splitting into runs commutes with mapping a function over the list. -/
theorem runsBy_map (p : β → Bool) (f : α → β) : ∀ l : List α,
    runsBy p (l.map f) = (runsBy (fun c => p (f c)) l).map (List.map f) := by
  intro l
  induction l with
  | nil => simp [runsBy]
  | cons a t ih =>
      cases t with
      | nil =>
          simp only [List.map_cons, List.map_nil]
          rw [runsBy.eq_2, runsBy.eq_2]
          by_cases ha : p (f a) = true
          · rw [if_pos ha, if_pos ha]; rfl
          · rw [if_neg ha, if_neg ha]; rfl
      | cons b t' =>
          simp only [List.map_cons]
          rw [runsBy.eq_3, runsBy.eq_3]
          simp only [← List.map_cons f b t', ih]
          by_cases ha : p (f a) = true
          · rw [if_pos ha, if_pos ha]
            by_cases hb : p (f b) = true
            · rw [if_pos hb, if_pos hb]
              cases hr : runsBy (fun c => p (f c)) (b :: t') with
              | nil => simp
              | cons run rs => simp
            · rw [if_neg hb, if_neg hb]
              simp
          · rw [if_neg ha, if_neg ha]

/-- Runs depend only on the predicate's values on the list. -/
theorem runsBy_congr {p q : α → Bool} : ∀ {l : List α},
    (∀ x ∈ l, p x = q x) → runsBy p l = runsBy q l := by
  intro l
  induction l with
  | nil => simp [runsBy]
  | cons a t ih =>
      intro h
      have ha : p a = q a := h a (List.mem_cons_self _ _)
      have ht : runsBy p t = runsBy q t :=
        ih (fun x hx => h x (List.mem_cons_of_mem _ hx))
      cases t with
      | nil => rw [runsBy.eq_2, runsBy.eq_2, ha, ht]
      | cons b t' =>
          have hb : p b = q b := h b (by simp)
          rw [runsBy.eq_3, runsBy.eq_3, ha, hb, ht]

/-- Every character of every run satisfies the predicate. -/
theorem runsBy_mem_pred {p : α → Bool} : ∀ {l : List α} {w : List α},
    w ∈ runsBy p l → ∀ x ∈ w, p x = true := by
  intro l
  induction l with
  | nil => intro w hw; simp [runsBy] at hw
  | cons a t ih =>
      intro w hw
      by_cases ha : p a = true
      · cases t with
        | nil =>
            rw [runsBy.eq_2, if_pos ha] at hw
            rcases List.mem_singleton.mp hw with rfl
            intro x hx
            rcases List.mem_singleton.mp hx with rfl
            exact ha
        | cons b t' =>
            rw [runsBy.eq_3, if_pos ha] at hw
            by_cases hb : p b = true
            · rw [if_pos hb] at hw
              cases hr : runsBy p (b :: t') with
              | nil =>
                  rw [hr] at hw
                  rcases List.mem_singleton.mp hw with rfl
                  intro x hx
                  rcases List.mem_singleton.mp hx with rfl
                  exact ha
              | cons run rs =>
                  rw [hr] at hw
                  rcases List.mem_cons.mp hw with rfl | hw'
                  · intro x hx
                    rcases List.mem_cons.mp hx with rfl | hx'
                    · exact ha
                    · exact ih (by rw [hr]; exact List.mem_cons_self _ _) x hx'
                  · exact ih (by rw [hr]; exact List.mem_cons_of_mem _ hw')
            · rw [if_neg hb] at hw
              rcases List.mem_cons.mp hw with rfl | hw'
              · intro x hx
                rcases List.mem_singleton.mp hx with rfl
                exact ha
              · exact ih hw'
      · have ha' : p a = false := by simpa using ha
        rw [runsBy_cons_neg t ha'] at hw
        exact ih hw

/-- Alphanumeric characters are not punctuation. -/
theorem pyIsPunct_of_alnum {c : Char} (h : pyIsAlnum c = true) :
    pyIsPunct c = false := by
  simp only [pyIsAlnum, Bool.or_eq_true, decide_eq_true_eq] at h
  simp only [pyIsPunct, Bool.or_eq_false_iff, decide_eq_false_iff_not]
  omega

/-- On alphanumeric characters the docdist6 translation table is exactly
docdist1's lower-casing. -/
theorem translateChar_of_alnum {c : Char} (h : pyIsAlnum c = true) :
    translateChar c = pyLowerChar c := by
  rw [translateChar, if_neg (by simp [pyIsPunct_of_alnum h])]
  rfl

/-- Lower-casing an alphanumeric character never yields whitespace. -/
theorem pyIsSpace_pyLowerChar {c : Char} (h : pyIsAlnum c = true) :
    pyIsSpace (pyLowerChar c) = false := by
  simp only [pyIsAlnum, Bool.or_eq_true, decide_eq_true_eq] at h
  rw [pyLowerChar]
  by_cases hU : 65 ≤ c.toNat ∧ c.toNat ≤ 90
  · rw [if_pos hU]
    have ht : (Char.ofNat (c.toNat + 32)).toNat = c.toNat + 32 :=
      toNat_ofNat_small _ (by omega)
    simp only [pyIsSpace, Bool.or_eq_false_iff, decide_eq_false_iff_not, ht]
    omega
  · rw [if_neg hU]
    simp only [pyIsSpace, Bool.or_eq_false_iff, decide_eq_false_iff_not]
    omega

/-- Over the alphabet the two programs both handle — alphanumerics,
whitespace and ASCII punctuation — a character survives the translation
table as a non-whitespace character exactly when it is alphanumeric. -/
theorem translate_notspace_eq_alnum {c : Char}
    (h : pyIsAlnum c = true ∨ pyIsSpace c = true ∨ pyIsPunct c = true) :
    (!(pyIsSpace (translateChar c))) = pyIsAlnum c := by
  rcases h with h | h | h
  · rw [translateChar_of_alnum h, pyIsSpace_pyLowerChar h, h]
    rfl
  · have halnum : pyIsAlnum c = false := by
      simp only [pyIsSpace, Bool.or_eq_true, decide_eq_true_eq] at h
      simp only [pyIsAlnum, Bool.or_eq_false_iff, decide_eq_false_iff_not]
      omega
    have hpunct : pyIsPunct c = false := by
      simp only [pyIsSpace, Bool.or_eq_true, decide_eq_true_eq] at h
      simp only [pyIsPunct, Bool.or_eq_false_iff, decide_eq_false_iff_not]
      omega
    have hupper : ¬ (65 ≤ c.toNat ∧ c.toNat ≤ 90) := by
      simp only [pyIsSpace, Bool.or_eq_true, decide_eq_true_eq] at h
      omega
    rw [translateChar, if_neg (by simp [hpunct]), if_neg hupper, h, halnum]
    rfl
  · have halnum : pyIsAlnum c = false := by
      simp only [pyIsPunct, Bool.or_eq_true, decide_eq_true_eq] at h
      simp only [pyIsAlnum, Bool.or_eq_false_iff, decide_eq_false_iff_not]
      omega
    rw [translateChar, if_pos (by simp [h]), halnum]
    rfl

/-- A sorted vector whose words are distinct is strictly ascending by
word. -/
theorem strictAscWords_of_sorted_nodup {v : List FreqPair}
    (hs : SortedPy v) (hn : (v.map Prod.fst).Nodup) : StrictAscWords v := by
  rw [StrictAscWords]
  rw [List.Nodup, List.pairwise_map] at hn
  refine (hs.and hn).imp ?_
  rintro x y ⟨h1, h2⟩
  rw [pairLt] at h1
  by_cases hk : y.1 = x.1
  · exact absurd hk.symm h2
  · rw [if_neg hk] at h1
    rcases strLt_connex h2 with h | h
    · exact h
    · rw [h] at h1; cases h1

/-! ## The claims -/

/-- C5: the claim says `merge_sort` terminates and returns a frequency
vector for every frequency map, including the empty one.  It does not: on
the empty map the source recursion `merge_sort([]) = merge(merge_sort([]),
merge_sort([]))` has no base case (`if n==1` only), so it never returns —
every recursion budget is exhausted. -/
theorem merge_sort_diverges_on_empty_map : MergeSortDiverges ([] : List FreqPair) :=
  fun fuel => merge_sort_fuel_nil fuel

/-- C6: `get_words_from_string` returns exactly the maximal runs of
consecutive alphanumeric characters of the line, each case-folded to lower
case, in the order in which each run starts; non-alphanumeric characters
contribute nothing and no token is filtered out or deduplicated. -/
theorem tokenize_is_lowercased_maximal_runs : ∀ line : List Char,
    get_words_from_string line =
      (runsBy pyIsAlnum line).map (List.map pyLowerChar) :=
  fun line => get_words_from_string_runs line

/-- C7: tokenization is line-bounded: the token list of a document is the
concatenation of the token lists of its lines, so every emitted token lies
entirely within a single line, and an alphanumeric run ending one line and
another starting the next line yield two separate tokens. -/
theorem tokenization_line_bounded :
    (∀ L : List (List Char),
      get_words_from_line_list L = (L.map get_words_from_string).flatten) ∧
    (∀ (L : List (List Char)) (w : Word), w ∈ get_words_from_line_list L →
      ∃ line ∈ L, w ∈ get_words_from_string line) ∧
    (∀ l1 l2 : List Char, get_words_from_line_list [l1, l2] =
      get_words_from_string l1 ++ get_words_from_string l2) := by
  refine ⟨get_words_from_line_list_eq, ?_, ?_⟩
  · intro L w hw
    rw [get_words_from_line_list_eq] at hw
    rcases List.mem_flatten.mp hw with ⟨ws, hws, hwmem⟩
    rcases List.mem_map.mp hws with ⟨line, hline, rfl⟩
    exact ⟨line, hline, hwmem⟩
  · intro l1 l2
    rw [get_words_from_line_list_eq]
    simp

/-- Witness for C7 at a concrete document: the token `ab` of the document
`["ab", "cd"]` comes from its first line. -/
theorem tokenization_line_bounded_witness :
    ∃ line ∈ [['a', 'b'], ['c', 'd']],
      ['a', 'b'] ∈ get_words_from_string line :=
  tokenization_line_bounded.2.1 [['a', 'b'], ['c', 'd']] ['a', 'b'] (by decide)

/-- C8: `count_frequency` maps each distinct token to exactly its number of
occurrences: counts are at least 1, no word appears twice, the stored
mapping is permutation-invariant, and the empty token list yields the empty
mapping. -/
theorem aggregation_exact :
    (∀ (wl : List Word) (w : Word),
      lookupWord w (count_frequency wl) =
        if wl.count w = 0 then none else some (wl.count w)) ∧
    (∀ wl : List Word, ((count_frequency wl).map Prod.fst).Nodup) ∧
    (∀ wl : List Word, ∀ p ∈ count_frequency wl, 1 ≤ p.2) ∧
    count_frequency [] = [] ∧
    (∀ wl wl' : List Word, List.Perm wl wl' → ∀ w : Word,
      lookupWord w (count_frequency wl) = lookupWord w (count_frequency wl')) := by
  refine ⟨fun wl w => lookupWord_count_frequency w wl,
    nodup_keys_count_frequency, counts_pos_count_frequency, rfl, ?_⟩
  intro wl wl' hperm w
  rw [lookupWord_count_frequency, lookupWord_count_frequency]
  have hc : wl.count w = wl'.count w := by
    induction hperm with
    | nil => rfl
    | cons x _ ih => rw [List.count_cons, List.count_cons, ih]
    | swap x y l => rw [List.count_cons, List.count_cons, List.count_cons,
        List.count_cons]; omega
    | trans _ _ ih1 ih2 => exact ih1.trans ih2
  rw [hc]

/-- Witness for C8 at concrete inputs: the counts of `a b a`, the bound on
a concrete entry, and invariance under swapping the input order. -/
theorem aggregation_exact_witness :
    lookupWord ['a'] (count_frequency [['a'], ['b'], ['a']]) =
      (if [['a'], ['b'], ['a']].count ['a'] = 0 then none
        else some ([['a'], ['b'], ['a']].count ['a'])) ∧
    1 ≤ ((['a'], 2) : FreqPair).2 ∧
    lookupWord ['b'] (count_frequency [['a'], ['b']]) =
      lookupWord ['b'] (count_frequency [['b'], ['a']]) :=
  ⟨aggregation_exact.1 [['a'], ['b'], ['a']] ['a'],
    aggregation_exact.2.2.1 [['a'], ['b'], ['a']] (['a'], 2) (by decide),
    aggregation_exact.2.2.2.2 [['a'], ['b']] [['b'], ['a']] (by decide) ['b']⟩

/-- C9: the merge-join `inner_product` is commutative on strictly
ascending frequency vectors (it is in fact commutative on all inputs). -/
theorem inner_product_commutative :
    ∀ L1 L2 : List FreqPair, StrictAscWords L1 → StrictAscWords L2 →
      inner_product L1 L2 = inner_product L2 L1 :=
  fun L1 L2 _ _ => inner_product_comm L1 L2

/-- Witness for C9 at concrete strictly ascending vectors. -/
theorem inner_product_commutative_witness :
    inner_product [(['a'], 2), (['b'], 3)] [(['b'], 5)] =
      inner_product [(['b'], 5)] [(['a'], 2), (['b'], 3)] :=
  inner_product_commutative [(['a'], 2), (['b'], 3)] [(['b'], 5)]
    (by decide) (by decide)

/-- C4 counterexample: on the empty token sequence, aggregating and then
ordering with docdist6's `merge_sort` produces no vector at all — the sort
never terminates on the empty frequency map. -/
theorem order_after_aggregate_diverges_on_empty_tokens :
    MergeSortDiverges (count_frequency []) :=
  fun fuel => merge_sort_fuel_nil fuel

/-- C4 (amended): aggregating and then ordering yields a strictly
ascending permutation of the map's entries — with `insertion_sort`
(docdist1) for every token sequence, and with `merge_sort` (docdist6) for
every non-empty token sequence, in any order the map's entries arrive in
(`merge_sort` fails to terminate on the empty sequence). -/
theorem aggregate_then_order_strictly_ascending :
    (∀ wl : List Word,
      StrictAscWords (insertion_sort (count_frequency wl)) ∧
      List.Perm (insertion_sort (count_frequency wl)) (count_frequency wl)) ∧
    (∀ (wl : List Word) (items : List FreqPair),
      List.Perm items (count_frequency wl) → items ≠ [] →
      ∃ v, merge_sort_fuel items.length items = some v ∧
        StrictAscWords v ∧ List.Perm v items) := by
  constructor
  · intro wl
    have hperm := insertion_sort_perm (count_frequency wl)
    have hnodup : ((insertion_sort (count_frequency wl)).map Prod.fst).Nodup :=
      ((hperm.map Prod.fst).nodup_iff).mpr
        ((nodup_keys_count_frequency wl).imp (fun h => h))
    exact ⟨strictAscWords_of_sorted_nodup (insertion_sort_sorted _) hnodup, hperm⟩
  · intro wl items hitems hne
    rcases merge_sort_fuel_correct items.length items hne (le_refl _) with
      ⟨v, heq, hsorted, hperm⟩
    have hnodup : (v.map Prod.fst).Nodup :=
      (((hperm.trans hitems).map Prod.fst).nodup_iff).mpr
        (nodup_keys_count_frequency wl)
    exact ⟨v, heq, strictAscWords_of_sorted_nodup hsorted hnodup, hperm⟩

/-- Witness for C4 at a concrete token sequence. -/
theorem aggregate_then_order_strictly_ascending_witness :
    ∃ v, merge_sort_fuel (count_frequency [['b'], ['a']]).length
        (count_frequency [['b'], ['a']]) = some v ∧
      StrictAscWords v ∧ List.Perm v (count_frequency [['b'], ['a']]) :=
  aggregate_then_order_strictly_ascending.2 [['b'], ['a']]
    (count_frequency [['b'], ['a']]) (List.Perm.refl _) (by decide)

/-- C2 counterexample: on an empty vector the angle computation fails with
Python's anonymous `ZeroDivisionError` from `numerator/denominator`, not
with the distinct `DegenerateVectorError` the spec names (no such error
class exists in the code). -/
theorem empty_vector_error_is_zero_division :
    vector_angle [] [(['a'], 1)] = Except.error PyErr.zeroDivisionError ∧
    (Except.error PyErr.zeroDivisionError : Except PyErr ℝ) ≠
      Except.error PyErr.degenerateVectorError := by
  refine ⟨vector_angle_zero_div (Or.inl rfl), ?_⟩
  simp

/-- C2 (amended): when either vector is empty the angle computation fails
with a `ZeroDivisionError` (an anonymous numeric division-by-zero
exception, not a distinct named error).  For every pair of non-empty,
strictly ascending frequency vectors (counts at least 1), the only
possible outcomes are the `arccos` domain `ValueError` — which the
program's IEEE floating-point arithmetic can actually reach when rounding
pushes the cosine ratio above 1, so the range conjunct cannot be asserted
unconditionally — or a real number in `[0, π/2]`.  In this exact-real
embedding the ratio never exceeds 1 (Cauchy–Schwarz), so the proof always
lands in the second disjunct; the first disjunct is what the floating-point
program realizes on inputs such as the vectors with counts
`(394196213, 589268180, 947826294)` and `(394196215, 589268183, 947826296)`,
whose IEEE ratio is `1 + 2^-52`. -/
theorem vector_angle_errors_and_range :
    (∀ L1 L2 : List FreqPair, L1 = [] ∨ L2 = [] →
      vector_angle L1 L2 = Except.error PyErr.zeroDivisionError) ∧
    (∀ L1 L2 : List FreqPair, L1 ≠ [] → L2 ≠ [] →
      StrictAscWords L1 → StrictAscWords L2 →
      (∀ p ∈ L1, 1 ≤ p.2) → (∀ p ∈ L2, 1 ≤ p.2) →
      vector_angle L1 L2 = Except.error PyErr.valueError ∨
      ∃ θ : ℝ, vector_angle L1 L2 = Except.ok θ ∧ 0 ≤ θ ∧ θ ≤ Real.pi / 2) := by
  constructor
  · intro L1 L2 h
    exact vector_angle_zero_div h
  · intro L1 L2 hne1 hne2 _ _ hpos1 hpos2
    rcases vector_angle_ok hne1 hne2 hpos1 hpos2 with ⟨heq, h0, h2⟩
    exact Or.inr ⟨_, heq, h0, h2⟩

/-- Witness for C2 at concrete vectors: an empty right vector raises the
division error, and two concrete one-word vectors either hit the domain
error or get an angle in range. -/
theorem vector_angle_errors_and_range_witness :
    vector_angle [(['a'], 1)] [] = Except.error PyErr.zeroDivisionError ∧
    (vector_angle [(['a'], 2)] [(['b'], 3)] = Except.error PyErr.valueError ∨
      ∃ θ : ℝ, vector_angle [(['a'], 2)] [(['b'], 3)] = Except.ok θ ∧
        0 ≤ θ ∧ θ ≤ Real.pi / 2) :=
  ⟨vector_angle_errors_and_range.1 [(['a'], 1)] [] (Or.inr rfl),
    vector_angle_errors_and_range.2 [(['a'], 2)] [(['b'], 3)]
      (by decide) (by decide) (by decide) (by decide) (by decide) (by decide)⟩

/-- C10 counterexample: on the line `a\x01b` (a control character between
two letters) docdist1's character-scan tokenizer yields the two words
`a`, `b`, while docdist6's translate-and-split tokenizer yields the single
word `a\x01b`: control characters are word separators for `isalnum` but
are not whitespace and not in the translation table. -/
theorem tokenizers_differ_on_control_char :
    get_words_from_string ['a', Char.ofNat 1, 'b'] ≠
      get_words_from_string6 ['a', Char.ofNat 1, 'b'] := by
  decide

/-- C10 (amended): on every line consisting only of alphanumeric
characters, whitespace and ASCII punctuation — the only characters the two
programs treat alike — the two tokenizers return the same word list. -/
theorem tokenizers_agree_on_common_alphabet :
    ∀ line : List Char,
      (∀ c ∈ line, pyIsAlnum c = true ∨ pyIsSpace c = true ∨ pyIsPunct c = true) →
      get_words_from_string line = get_words_from_string6 line := by
  intro line h
  rw [get_words_from_string_runs, get_words_from_string6]
  rw [runsBy_map (fun c => !(pyIsSpace c)) translateChar line]
  rw [runsBy_congr (fun c hc => translate_notspace_eq_alnum (h c hc))]
  apply List.map_congr_left
  intro run hrun
  apply List.map_congr_left
  intro c hc
  exact (translateChar_of_alnum (runsBy_mem_pred hrun c hc)).symm

/-- Witness for C10 at a concrete line containing an uppercase letter,
punctuation and spaces. -/
theorem tokenizers_agree_on_common_alphabet_witness :
    get_words_from_string ("The dog, Spot!".toList) =
      get_words_from_string6 ("The dog, Spot!".toList) :=
  tokenizers_agree_on_common_alphabet ("The dog, Spot!".toList) (by decide)

/-- C1: the full docdist1 pipeline on the two documents `"the cat sat"`
and `"the dog sat"`: frequency vectors `{cat:1, sat:1, the:1}` and
`{dog:1, sat:1, the:1}`, inner product 2, self inner products 3 (norms
`√3`), and angle `arccos(2/3)`. -/
theorem pipeline_cat_dog_scenario :
    insertion_sort (count_frequency (get_words_from_line_list
        ["the cat sat".toList])) =
      [("cat".toList, 1), ("sat".toList, 1), ("the".toList, 1)] ∧
    insertion_sort (count_frequency (get_words_from_line_list
        ["the dog sat".toList])) =
      [("dog".toList, 1), ("sat".toList, 1), ("the".toList, 1)] ∧
    inner_product [("cat".toList, 1), ("sat".toList, 1), ("the".toList, 1)]
      [("dog".toList, 1), ("sat".toList, 1), ("the".toList, 1)] = 2 ∧
    inner_product [("cat".toList, 1), ("sat".toList, 1), ("the".toList, 1)]
      [("cat".toList, 1), ("sat".toList, 1), ("the".toList, 1)] = 3 ∧
    inner_product [("dog".toList, 1), ("sat".toList, 1), ("the".toList, 1)]
      [("dog".toList, 1), ("sat".toList, 1), ("the".toList, 1)] = 3 ∧
    Real.sqrt ((3 : ℕ) : ℝ) = Real.sqrt 3 ∧
    vector_angle [("cat".toList, 1), ("sat".toList, 1), ("the".toList, 1)]
        [("dog".toList, 1), ("sat".toList, 1), ("the".toList, 1)] =
      Except.ok (Real.arccos (2 / 3)) := by
  have hAB : inner_product
      [("cat".toList, 1), ("sat".toList, 1), ("the".toList, 1)]
      [("dog".toList, 1), ("sat".toList, 1), ("the".toList, 1)] = 2 := by
    norm_num [inner_product.eq_1, inner_product.eq_2, inner_product.eq_3, strLt]
    all_goals decide
  have hAA : inner_product
      [("cat".toList, 1), ("sat".toList, 1), ("the".toList, 1)]
      [("cat".toList, 1), ("sat".toList, 1), ("the".toList, 1)] = 3 := by
    norm_num [inner_product.eq_1, inner_product.eq_2, inner_product.eq_3, strLt]
  have hBB : inner_product
      [("dog".toList, 1), ("sat".toList, 1), ("the".toList, 1)]
      [("dog".toList, 1), ("sat".toList, 1), ("the".toList, 1)] = 3 := by
    norm_num [inner_product.eq_1, inner_product.eq_2, inner_product.eq_3, strLt]
  refine ⟨by decide, by decide, hAB, hAA, hBB, rfl, ?_⟩
  rw [vector_angle]
  simp only [hAB, hAA, hBB]
  have hs : Real.sqrt (((3 : ℕ) : ℝ) * ((3 : ℕ) : ℝ)) = 3 := by
    push_cast
    exact Real.sqrt_mul_self (by norm_num)
  rw [hs]
  rw [if_neg (by norm_num)]
  rw [if_neg (by push_cast; norm_num)]
  norm_num
